import Mathlib

/-!
Verification of the quadtree in src/tree.rs (crate quadtree-rs).

The tree code is embedded shallowly: `Quadtree` is the recursive node type
(`quadrants : Option<[Box<Quadtree>; 4]>` becomes the two constructors
`leaf` / `node`), `insert` returns the post-call tree together with the
call's result (mirroring `&mut self` plus `Result`), and `query` is a pure
function to a list.  Coordinates are rationals standing for the source's
floating-point numbers.

The geometry collaborator (`Vector2`, `Rectangle`, `Positioned`) is not part
of the repository's sources; its predicates are modelled from the spec:
`contains` uses the closed bounds of the region, `intersects` counts
touching edges as overlap.
-/

/-- Model of the collaborator's 2-D vector type (rational coordinates in
place of the source's floating point). -/
structure Vector2 where
  x : ℚ
  y : ℚ
deriving DecidableEq

/-- Model of the collaborator's rectangle: a center point and a half-extent,
as described in the spec's data model. -/
structure Rectangle where
  center : Vector2
  half_dim : Vector2
deriving DecidableEq

/-- Modelled from the spec: Rectangle.contains is not in the repository's
sources; the spec says it is true if the position lies within the closed
bounds of the region. -/
def Rectangle.contains (r : Rectangle) (p : Vector2) : Bool :=
  decide (r.center.x - r.half_dim.x ≤ p.x ∧ p.x ≤ r.center.x + r.half_dim.x ∧
    r.center.y - r.half_dim.y ≤ p.y ∧ p.y ≤ r.center.y + r.half_dim.y)

/-- Modelled from the spec: Rectangle.intersects is not in the repository's
sources; the spec says it is true if the two regions overlap, including
touching edges. -/
def Rectangle.intersects (a : Rectangle) (b : Rectangle) : Bool :=
  decide (|a.center.x - b.center.x| ≤ a.half_dim.x + b.half_dim.x ∧
    |a.center.y - b.center.y| ≤ a.half_dim.y + b.half_dim.y)

/-- An entry: the tree stores references to caller-owned positioned values;
`id` models the identity of the reference, `position` the exposed position. -/
structure Entry where
  id : ℕ
  position : Vector2
deriving DecidableEq

/-- const NODE_CAPACITY: usize = 4 (tree.rs line 5). -/
def NODE_CAPACITY : ℕ := 4

/-- Result of one insert call: Ok(()), the "Entry not within bounds" error,
or the "This should not happen" error (tree.rs lines 26, 44). -/
inductive InsertResult where
  | ok
  | outOfBounds
  | internalError
deriving DecidableEq

/-- The node type of tree.rs: `leaf b es` is a node with `quadrants = None`,
`node b es nw ne sw se` one with the four quadrants present, in the source's
order north-west, north-east, south-west, south-east. -/
inductive Quadtree where
  | leaf (boundary : Rectangle) (entries : List Entry)
  | node (boundary : Rectangle) (entries : List Entry)
      (nw : Quadtree) (ne : Quadtree) (sw : Quadtree) (se : Quadtree)
deriving DecidableEq

/-- The node's boundary field. -/
def Quadtree.boundary : Quadtree → Rectangle
  | .leaf b _ => b
  | .node b _ _ _ _ _ => b

/-- The node's own entries field. -/
def Quadtree.entries : Quadtree → List Entry
  | .leaf _ es => es
  | .node _ es _ _ _ _ => es

/-- Quadtree::new: a leaf with empty entries and no quadrants. -/
def Quadtree.new (boundary : Rectangle) : Quadtree := .leaf boundary []

/-- North-west child boundary computed by subdivide (tree.rs lines 78-81). -/
def nwRect (b : Rectangle) : Rectangle :=
  ⟨⟨b.center.x - b.half_dim.x / 2, b.center.y - b.half_dim.y / 2⟩,
   ⟨b.half_dim.x / 2, b.half_dim.y / 2⟩⟩

/-- North-east child boundary computed by subdivide (tree.rs lines 84-87). -/
def neRect (b : Rectangle) : Rectangle :=
  ⟨⟨b.center.x + b.half_dim.x / 2, b.center.y - b.half_dim.y / 2⟩,
   ⟨b.half_dim.x / 2, b.half_dim.y / 2⟩⟩

/-- South-west child boundary computed by subdivide (tree.rs lines 90-93). -/
def swRect (b : Rectangle) : Rectangle :=
  ⟨⟨b.center.x - b.half_dim.x / 2, b.center.y + b.half_dim.y / 2⟩,
   ⟨b.half_dim.x / 2, b.half_dim.y / 2⟩⟩

/-- South-east child boundary computed by subdivide (tree.rs lines 96-99). -/
def seRect (b : Rectangle) : Rectangle :=
  ⟨⟨b.center.x + b.half_dim.x / 2, b.center.y + b.half_dim.y / 2⟩,
   ⟨b.half_dim.x / 2, b.half_dim.y / 2⟩⟩

/-- Inserting into a freshly created node (as subdivide's children are):
the containment check, then the push into the empty entries list.  This is
the unfolding of `insert` on `Quadtree.new b` (proved below as
`insert_new_eq_insertNew`); it is split out only so that `insert` is
structurally recursive. -/
def Quadtree.insertNew (b : Rectangle) (e : Entry) : Quadtree × InsertResult :=
  if !(b.contains e.position) then (.leaf b [], .outOfBounds)
  else (.leaf b ([] ++ [e]), .ok)

/-- The quadrant loop of insert (tree.rs lines 38-44): try the four
quadrants in order; the first Ok wins, otherwise the "This should not
happen" error.  `r1..r4` are the four post-insert (child, result) pairs;
a slot after the accepted one keeps its original child (`ne0`, `sw0`,
`se0`), a slot already tried keeps its post-insert child even on failure,
mirroring the sequential mutation of the source loop. -/
def Quadtree.insertLoop (b : Rectangle) (l : List Entry)
    (ne0 : Quadtree) (sw0 : Quadtree) (se0 : Quadtree)
    (r1 : Quadtree × InsertResult) (r2 : Quadtree × InsertResult)
    (r3 : Quadtree × InsertResult) (r4 : Quadtree × InsertResult) :
    Quadtree × InsertResult :=
  if r1.2 = .ok then (.node b l r1.1 ne0 sw0 se0, .ok)
  else if r2.2 = .ok then (.node b l r1.1 r2.1 sw0 se0, .ok)
  else if r3.2 = .ok then (.node b l r1.1 r2.1 r3.1 se0, .ok)
  else if r4.2 = .ok then (.node b l r1.1 r2.1 r3.1 r4.1, .ok)
  else (.node b l r1.1 r2.1 r3.1 r4.1, .internalError)

/-- Quadtree::insert (tree.rs lines 24-45).  Returns the tree after the
call together with the result.  A leaf at capacity first subdivides
(installing the four fresh children of tree.rs lines 71-102) and then runs
the quadrant loop; inserting into a fresh child is `insertNew`. -/
def Quadtree.insert : Quadtree → Entry → Quadtree × InsertResult
  | .leaf b es, e =>
    if !(b.contains e.position) then (.leaf b es, .outOfBounds)
    else if es.length < NODE_CAPACITY then (.leaf b (es ++ [e]), .ok)
    else
      insertLoop b es (.new (neRect b)) (.new (swRect b)) (.new (seRect b))
        (insertNew (nwRect b) e) (insertNew (neRect b) e)
        (insertNew (swRect b) e) (insertNew (seRect b) e)
  | .node b es nw ne sw se, e =>
    if !(b.contains e.position) then (.node b es nw ne sw se, .outOfBounds)
    else
      insertLoop b es ne sw se (nw.insert e) (ne.insert e) (sw.insert e) (se.insert e)

/-- Quadtree::query (tree.rs lines 47-69): prune when the boundary misses
the range, otherwise the node's matching entries followed by the four
quadrants' results in order. -/
def Quadtree.query : Quadtree → Rectangle → List Entry
  | .leaf b es, range =>
    if !(b.intersects range) then []
    else es.filter (fun e => range.contains e.position)
  | .node b es nw ne sw se, range =>
    if !(b.intersects range) then []
    else
      es.filter (fun e => range.contains e.position) ++
        nw.query range ++ ne.query range ++ sw.query range ++ se.query range

/-- Folding a sequence of insert calls over a tree, keeping each call's
post-call tree (a failed call's tree included, as with `&mut self`). -/
def Quadtree.insertAll (t : Quadtree) (es : List Entry) : Quadtree :=
  es.foldl (fun t e => (t.insert e).1) t

/-- All entries stored anywhere in the subtree, node entries first. -/
def Quadtree.allEntries : Quadtree → List Entry
  | .leaf _ es => es
  | .node _ es nw ne sw se =>
      es ++ nw.allEntries ++ ne.allEntries ++ sw.allEntries ++ se.allEntries

/-- Structural well-formedness: every internal node's children carry the
four boundaries subdivide computes from the parent's boundary.  Every tree
reachable through new and insert satisfies this. -/
def Quadtree.WellFormed : Quadtree → Prop
  | .leaf _ _ => True
  | .node b _ nw ne sw se =>
      nw.boundary = nwRect b ∧ ne.boundary = neRect b ∧
      sw.boundary = swRect b ∧ se.boundary = seRect b ∧
      nw.WellFormed ∧ ne.WellFormed ∧ sw.WellFormed ∧ se.WellFormed

/-- Containment invariant: every entry stored in a subtree lies within that
subtree's root boundary, recursively at every node. -/
def Quadtree.Inv : Quadtree → Prop
  | .leaf b es => ∀ x ∈ es, b.contains x.position = true
  | .node b es nw ne sw se =>
      (∀ x ∈ (Quadtree.node b es nw ne sw se).allEntries,
        b.contains x.position = true) ∧
      nw.Inv ∧ ne.Inv ∧ sw.Inv ∧ se.Inv

/-- Capacity invariant: every node's own entries list has at most
NODE_CAPACITY elements. -/
def Quadtree.CapOK : Quadtree → Prop
  | .leaf _ es => es.length ≤ NODE_CAPACITY
  | .node _ es nw ne sw se =>
      es.length ≤ NODE_CAPACITY ∧ nw.CapOK ∧ ne.CapOK ∧ sw.CapOK ∧ se.CapOK

/-- One tree grows into another: every node keeps its boundary, a leaf's
entries are only ever appended to, an internal node's own entries never
change and its four children grow in place (never replaced, never removed,
and an internal node never reverts to a leaf). -/
def Quadtree.Grows : Quadtree → Quadtree → Prop
  | .leaf b es, .leaf b1 es1 => b1 = b ∧ ∃ t, es1 = es ++ t
  | .leaf b es, .node b1 es1 _ _ _ _ => b1 = b ∧ ∃ t, es1 = es ++ t
  | .node _ _ _ _ _ _, .leaf _ _ => False
  | .node b es nw ne sw se, .node b1 es1 nw1 ne1 sw1 se1 =>
      b1 = b ∧ es1 = es ∧
      nw.Grows nw1 ∧ ne.Grows ne1 ∧ sw.Grows sw1 ∧ se.Grows se1

/-- The boundary used by the source's tests: center (0,0), half-extent
(100,100). -/
def R100 : Rectangle := ⟨⟨0, 0⟩, ⟨100, 100⟩⟩

/-- A range far away from R100, for pruning examples. -/
def Rfar : Rectangle := ⟨⟨300, 300⟩, ⟨1, 1⟩⟩

/-- Sample entries (distinct references at various positions). -/
def ent50 : Entry := ⟨1, ⟨50, 50⟩⟩

def ent150 : Entry := ⟨2, ⟨150, 150⟩⟩

def entB : Entry := ⟨3, ⟨-10, 20⟩⟩

def entC : Entry := ⟨4, ⟨30, -40⟩⟩

def entD : Entry := ⟨5, ⟨-60, -70⟩⟩

def entE : Entry := ⟨6, ⟨80, 10⟩⟩

theorem contains_iff (r : Rectangle) (p : Vector2) :
    r.contains p = true ↔
      (r.center.x - r.half_dim.x ≤ p.x ∧ p.x ≤ r.center.x + r.half_dim.x ∧
       r.center.y - r.half_dim.y ≤ p.y ∧ p.y ≤ r.center.y + r.half_dim.y) := by
  simp [Rectangle.contains]

theorem intersects_iff (a : Rectangle) (b : Rectangle) :
    a.intersects b = true ↔
      (|a.center.x - b.center.x| ≤ a.half_dim.x + b.half_dim.x ∧
       |a.center.y - b.center.y| ≤ a.half_dim.y + b.half_dim.y) := by
  simp [Rectangle.intersects]

theorem intersects_of_common_point (a : Rectangle) (r : Rectangle) (p : Vector2)
    (ha : a.contains p = true) (hr : r.contains p = true) :
    a.intersects r = true := by
  rw [contains_iff] at ha hr
  rw [intersects_iff]
  obtain ⟨ha1, ha2, ha3, ha4⟩ := ha
  obtain ⟨hr1, hr2, hr3, hr4⟩ := hr
  constructor <;> rw [abs_sub_le_iff] <;> constructor <;> linarith

theorem contains_some_child (b : Rectangle) (p : Vector2)
    (h : b.contains p = true) :
    (nwRect b).contains p = true ∨ (neRect b).contains p = true ∨
    (swRect b).contains p = true ∨ (seRect b).contains p = true := by
  rw [contains_iff] at h
  obtain ⟨h1, h2, h3, h4⟩ := h
  rcases le_total p.x b.center.x with hx | hx <;>
    rcases le_total p.y b.center.y with hy | hy
  · exact Or.inl (by rw [contains_iff]; refine ⟨?_, ?_, ?_, ?_⟩ <;>
      simp only [nwRect] <;> linarith)
  · exact Or.inr (Or.inr (Or.inl (by rw [contains_iff]; refine ⟨?_, ?_, ?_, ?_⟩ <;>
      simp only [swRect] <;> linarith)))
  · exact Or.inr (Or.inl (by rw [contains_iff]; refine ⟨?_, ?_, ?_, ?_⟩ <;>
      simp only [neRect] <;> linarith))
  · exact Or.inr (Or.inr (Or.inr (by rw [contains_iff]; refine ⟨?_, ?_, ?_, ?_⟩ <;>
      simp only [seRect] <;> linarith)))

theorem insert_new_eq_insertNew (b : Rectangle) (e : Entry) :
    (Quadtree.new b).insert e = Quadtree.insertNew b e := by
  simp [Quadtree.new, Quadtree.insert, Quadtree.insertNew, NODE_CAPACITY]

theorem insertNew_snd_ok_iff (b : Rectangle) (e : Entry) :
    (Quadtree.insertNew b e).2 = .ok ↔ b.contains e.position = true := by
  by_cases h : b.contains e.position = true <;> simp [Quadtree.insertNew, h]

theorem insertNew_snd_ne_internal (b : Rectangle) (e : Entry) :
    (Quadtree.insertNew b e).2 ≠ .internalError := by
  by_cases h : b.contains e.position = true <;> simp [Quadtree.insertNew, h]

theorem insertNew_fst_of_ok (b : Rectangle) (e : Entry)
    (h : (Quadtree.insertNew b e).2 = .ok) :
    (Quadtree.insertNew b e).1 = .leaf b [e] := by
  by_cases hc : b.contains e.position = true <;>
    simp [Quadtree.insertNew, hc] at h ⊢

theorem insertNew_fst_of_not_ok (b : Rectangle) (e : Entry)
    (h : (Quadtree.insertNew b e).2 ≠ .ok) :
    (Quadtree.insertNew b e).1 = .leaf b [] := by
  by_cases hc : b.contains e.position = true <;>
    simp [Quadtree.insertNew, hc] at h ⊢

theorem insertNew_fst_boundary (b : Rectangle) (e : Entry) :
    (Quadtree.insertNew b e).1.boundary = b := by
  by_cases hc : b.contains e.position = true <;>
    simp [Quadtree.insertNew, hc, Quadtree.boundary]

theorem insertNew_fst_entries_sub (b : Rectangle) (e : Entry) (x : Entry)
    (h : x ∈ (Quadtree.insertNew b e).1.allEntries) : x = e := by
  by_cases hc : b.contains e.position = true <;>
    simp [Quadtree.insertNew, hc, Quadtree.allEntries] at h
  exact h

theorem insert_of_not_contains (t : Quadtree) (e : Entry)
    (h : t.boundary.contains e.position = false) :
    t.insert e = (t, .outOfBounds) := by
  cases t <;> simp_all [Quadtree.insert, Quadtree.boundary]

theorem insertLoop_snd_ok_iff (b : Rectangle) (l : List Entry)
    (ne0 sw0 se0 : Quadtree) (r1 r2 r3 r4 : Quadtree × InsertResult) :
    (Quadtree.insertLoop b l ne0 sw0 se0 r1 r2 r3 r4).2 = .ok ↔
      (r1.2 = .ok ∨ r2.2 = .ok ∨ r3.2 = .ok ∨ r4.2 = .ok) := by
  unfold Quadtree.insertLoop
  split_ifs <;> simp_all

theorem insertLoop_snd_internal_iff (b : Rectangle) (l : List Entry)
    (ne0 sw0 se0 : Quadtree) (r1 r2 r3 r4 : Quadtree × InsertResult) :
    (Quadtree.insertLoop b l ne0 sw0 se0 r1 r2 r3 r4).2 = .internalError ↔
      (r1.2 ≠ .ok ∧ r2.2 ≠ .ok ∧ r3.2 ≠ .ok ∧ r4.2 ≠ .ok) := by
  unfold Quadtree.insertLoop
  split_ifs <;> simp_all

theorem insertLoop_snd_ne_oob (b : Rectangle) (l : List Entry)
    (ne0 sw0 se0 : Quadtree) (r1 r2 r3 r4 : Quadtree × InsertResult) :
    (Quadtree.insertLoop b l ne0 sw0 se0 r1 r2 r3 r4).2 ≠ .outOfBounds := by
  unfold Quadtree.insertLoop
  split_ifs <;> simp

theorem insertLoop_fst_boundary (b : Rectangle) (l : List Entry)
    (ne0 sw0 se0 : Quadtree) (r1 r2 r3 r4 : Quadtree × InsertResult) :
    (Quadtree.insertLoop b l ne0 sw0 se0 r1 r2 r3 r4).1.boundary = b := by
  unfold Quadtree.insertLoop
  split_ifs <;> rfl

theorem insert_fst_boundary (t : Quadtree) (e : Entry) :
    (t.insert e).1.boundary = t.boundary := by
  cases t with
  | leaf b es =>
    simp only [Quadtree.insert]
    split_ifs <;> first
      | rfl
      | exact insertLoop_fst_boundary ..
  | node b es nw ne sw se =>
    simp only [Quadtree.insert]
    split_ifs <;> first
      | rfl
      | exact insertLoop_fst_boundary ..

theorem insert_leaf_push (b : Rectangle) (es : List Entry) (e : Entry)
    (hc : b.contains e.position = true) (hlen : es.length < NODE_CAPACITY) :
    Quadtree.insert (.leaf b es) e = (.leaf b (es ++ [e]), .ok) := by
  simp [Quadtree.insert, hc, hlen]

theorem insert_leaf_full (b : Rectangle) (es : List Entry) (e : Entry)
    (hc : b.contains e.position = true) (hlen : ¬ es.length < NODE_CAPACITY) :
    Quadtree.insert (.leaf b es) e =
      Quadtree.insertLoop b es (.new (neRect b)) (.new (swRect b)) (.new (seRect b))
        (Quadtree.insertNew (nwRect b) e) (Quadtree.insertNew (neRect b) e)
        (Quadtree.insertNew (swRect b) e) (Quadtree.insertNew (seRect b) e) := by
  simp [Quadtree.insert, hc, hlen]

theorem insert_node_contains (b : Rectangle) (es : List Entry)
    (nw ne sw se : Quadtree) (e : Entry) (hc : b.contains e.position = true) :
    Quadtree.insert (.node b es nw ne sw se) e =
      Quadtree.insertLoop b es ne sw se
        (nw.insert e) (ne.insert e) (sw.insert e) (se.insert e) := by
  simp [Quadtree.insert, hc]

theorem new_WF (b : Rectangle) : (Quadtree.new b).WellFormed := by
  simp [Quadtree.new, Quadtree.WellFormed]

theorem insertNew_fst_WF (b : Rectangle) (e : Entry) :
    (Quadtree.insertNew b e).1.WellFormed := by
  by_cases hc : b.contains e.position = true <;>
    simp [Quadtree.insertNew, hc, Quadtree.WellFormed]

theorem insert_snd_ok_iff : ∀ (t : Quadtree) (e : Entry), t.WellFormed →
    ((t.insert e).2 = .ok ↔ t.boundary.contains e.position = true) := by
  intro t e
  induction t with
  | leaf b es =>
    intro _
    by_cases hc : b.contains e.position = true
    · refine iff_of_true ?_ hc
      by_cases hlen : es.length < NODE_CAPACITY
      · rw [insert_leaf_push b es e hc hlen]
      · rw [insert_leaf_full b es e hc hlen, insertLoop_snd_ok_iff]
        simpa only [insertNew_snd_ok_iff] using contains_some_child b e.position hc
    · have hc2 : b.contains e.position = false := by simpa using hc
      refine iff_of_false ?_ (by simp [Quadtree.boundary, hc2])
      rw [insert_of_not_contains (.leaf b es) e hc2]
      simp
  | node b es nw ne sw se ihnw ihne ihsw ihse =>
    intro hw
    simp only [Quadtree.WellFormed] at hw
    obtain ⟨hbnw, hbne, hbsw, hbse, wnw, wne, wsw, wse⟩ := hw
    by_cases hc : b.contains e.position = true
    · refine iff_of_true ?_ hc
      rw [insert_node_contains b es nw ne sw se e hc, insertLoop_snd_ok_iff]
      rcases contains_some_child b e.position hc with h | h | h | h
      · exact Or.inl ((ihnw wnw).2 (by rw [hbnw]; exact h))
      · exact Or.inr (Or.inl ((ihne wne).2 (by rw [hbne]; exact h)))
      · exact Or.inr (Or.inr (Or.inl ((ihsw wsw).2 (by rw [hbsw]; exact h))))
      · exact Or.inr (Or.inr (Or.inr ((ihse wse).2 (by rw [hbse]; exact h))))
    · have hc2 : b.contains e.position = false := by simpa using hc
      refine iff_of_false ?_ (by simp [Quadtree.boundary, hc2])
      rw [insert_of_not_contains (.node b es nw ne sw se) e hc2]
      simp

theorem insert_snd_not_ok_eq (t : Quadtree) (e : Entry) (hw : t.WellFormed)
    (h : (t.insert e).2 ≠ .ok) : t.insert e = (t, .outOfBounds) := by
  apply insert_of_not_contains
  by_contra hc
  exact h ((insert_snd_ok_iff t e hw).2 (by simpa using hc))

theorem insert_WF : ∀ (t : Quadtree) (e : Entry), t.WellFormed →
    (t.insert e).1.WellFormed := by
  intro t e
  induction t with
  | leaf b es =>
    intro _
    by_cases hc : b.contains e.position = true
    · by_cases hlen : es.length < NODE_CAPACITY
      · rw [insert_leaf_push b es e hc hlen]
        simp [Quadtree.WellFormed]
      · rw [insert_leaf_full b es e hc hlen]
        unfold Quadtree.insertLoop
        split_ifs <;>
          exact ⟨by first | exact insertNew_fst_boundary .. | rfl,
            by first | exact insertNew_fst_boundary .. | rfl,
            by first | exact insertNew_fst_boundary .. | rfl,
            by first | exact insertNew_fst_boundary .. | rfl,
            by first | exact insertNew_fst_WF .. | exact new_WF ..,
            by first | exact insertNew_fst_WF .. | exact new_WF ..,
            by first | exact insertNew_fst_WF .. | exact new_WF ..,
            by first | exact insertNew_fst_WF .. | exact new_WF ..⟩
    · have hc2 : b.contains e.position = false := by simpa using hc
      rw [insert_of_not_contains (.leaf b es) e hc2]
      simp [Quadtree.WellFormed]
  | node b es nw ne sw se ihnw ihne ihsw ihse =>
    intro hw
    simp only [Quadtree.WellFormed] at hw
    obtain ⟨hbnw, hbne, hbsw, hbse, wnw, wne, wsw, wse⟩ := hw
    by_cases hc : b.contains e.position = true
    · rw [insert_node_contains b es nw ne sw se e hc]
      unfold Quadtree.insertLoop
      split_ifs <;>
        exact ⟨by rw [insert_fst_boundary]; exact hbnw,
          by first | rw [insert_fst_boundary]; exact hbne | exact hbne,
          by first | rw [insert_fst_boundary]; exact hbsw | exact hbsw,
          by first | rw [insert_fst_boundary]; exact hbse | exact hbse,
          ihnw wnw,
          by first | exact ihne wne | exact wne,
          by first | exact ihsw wsw | exact wsw,
          by first | exact ihse wse | exact wse⟩
    · have hc2 : b.contains e.position = false := by simpa using hc
      rw [insert_of_not_contains (.node b es nw ne sw se) e hc2]
      exact ⟨hbnw, hbne, hbsw, hbse, wnw, wne, wsw, wse⟩

theorem insert_allEntries_count : ∀ (t : Quadtree) (e x : Entry), t.WellFormed →
    (t.insert e).2 = .ok →
    ((t.insert e).1.allEntries).count x = ((e :: t.allEntries).count x) := by
  intro t e x
  induction t with
  | leaf b es =>
    intro _ hok
    by_cases hc : b.contains e.position = true
    · by_cases hlen : es.length < NODE_CAPACITY
      · rw [insert_leaf_push b es e hc hlen]
        by_cases hxe : x = e <;>
          simp [Quadtree.allEntries, List.count_append, List.count_cons, hxe]
      · rw [insert_leaf_full b es e hc hlen] at hok ⊢
        unfold Quadtree.insertLoop at hok ⊢
        split_ifs at hok ⊢ with h1 h2 h3 h4
        · rw [insertNew_fst_of_ok _ _ h1]
          by_cases hxe : x = e <;>
            simp [Quadtree.allEntries, Quadtree.new, List.count_append, List.count_cons, hxe]
        · rw [insertNew_fst_of_not_ok _ _ h1, insertNew_fst_of_ok _ _ h2]
          by_cases hxe : x = e <;>
            simp [Quadtree.allEntries, Quadtree.new, List.count_append, List.count_cons, hxe]
        · rw [insertNew_fst_of_not_ok _ _ h1, insertNew_fst_of_not_ok _ _ h2,
            insertNew_fst_of_ok _ _ h3]
          by_cases hxe : x = e <;>
            simp [Quadtree.allEntries, Quadtree.new, List.count_append, List.count_cons, hxe]
        · rw [insertNew_fst_of_not_ok _ _ h1, insertNew_fst_of_not_ok _ _ h2,
            insertNew_fst_of_not_ok _ _ h3, insertNew_fst_of_ok _ _ h4]
          by_cases hxe : x = e <;>
            simp [Quadtree.allEntries, Quadtree.new, List.count_append, List.count_cons, hxe]
        all_goals exact absurd hok (by simp)
    · have hc2 : b.contains e.position = false := by simpa using hc
      rw [insert_of_not_contains (.leaf b es) e hc2] at hok
      exact absurd hok (by simp)
  | node b es nw ne sw se ihnw ihne ihsw ihse =>
    intro hw hok
    simp only [Quadtree.WellFormed] at hw
    obtain ⟨hbnw, hbne, hbsw, hbse, wnw, wne, wsw, wse⟩ := hw
    by_cases hc : b.contains e.position = true
    · rw [insert_node_contains b es nw ne sw se e hc] at hok ⊢
      unfold Quadtree.insertLoop at hok ⊢
      split_ifs at hok ⊢ with h1 h2 h3 h4
      · have hcnt := ihnw wnw h1
        by_cases hxe : x = e <;>
          simp only [Quadtree.allEntries, List.count_append, List.count_cons, hxe] at hcnt ⊢ <;>
          simp_all <;> omega
      · have hun1 : nw.insert e = (nw, .outOfBounds) := insert_snd_not_ok_eq nw e wnw h1
        have hcnt := ihne wne h2
        rw [hun1]
        by_cases hxe : x = e <;>
          simp only [Quadtree.allEntries, List.count_append, List.count_cons, hxe] at hcnt ⊢ <;>
          simp_all <;> omega
      · have hun1 : nw.insert e = (nw, .outOfBounds) := insert_snd_not_ok_eq nw e wnw h1
        have hun2 : ne.insert e = (ne, .outOfBounds) := insert_snd_not_ok_eq ne e wne h2
        have hcnt := ihsw wsw h3
        rw [hun1, hun2]
        by_cases hxe : x = e <;>
          simp only [Quadtree.allEntries, List.count_append, List.count_cons, hxe] at hcnt ⊢ <;>
          simp_all <;> omega
      · have hun1 : nw.insert e = (nw, .outOfBounds) := insert_snd_not_ok_eq nw e wnw h1
        have hun2 : ne.insert e = (ne, .outOfBounds) := insert_snd_not_ok_eq ne e wne h2
        have hun3 : sw.insert e = (sw, .outOfBounds) := insert_snd_not_ok_eq sw e wsw h3
        have hcnt := ihse wse h4
        rw [hun1, hun2, hun3]
        by_cases hxe : x = e <;>
          simp only [Quadtree.allEntries, List.count_append, List.count_cons, hxe] at hcnt ⊢ <;>
          simp_all <;> omega
      all_goals exact absurd hok (by simp)
    · have hc2 : b.contains e.position = false := by simpa using hc
      rw [insert_of_not_contains (.node b es nw ne sw se) e hc2] at hok
      exact absurd hok (by simp)

theorem insert_allEntries_mem (t : Quadtree) (e x : Entry) (hw : t.WellFormed)
    (hx : x ∈ (t.insert e).1.allEntries) : x = e ∨ x ∈ t.allEntries := by
  by_cases hok : (t.insert e).2 = .ok
  · have hcnt := insert_allEntries_count t e x hw hok
    have hpos : 0 < ((e :: t.allEntries).count x) := by
      rw [← hcnt]
      exact List.count_pos_iff.2 hx
    have hmem : x ∈ e :: t.allEntries := List.count_pos_iff.1 hpos
    simpa using hmem
  · rw [insert_snd_not_ok_eq t e hw hok] at hx
    exact Or.inr hx

theorem new_Inv (b : Rectangle) : (Quadtree.new b).Inv := by
  simp [Quadtree.new, Quadtree.Inv]

theorem insertNew_fst_Inv (b : Rectangle) (e : Entry) :
    (Quadtree.insertNew b e).1.Inv := by
  by_cases hc : b.contains e.position = true <;>
    simp [Quadtree.insertNew, hc, Quadtree.Inv]

theorem Inv_root (t : Quadtree) (ht : t.Inv) (x : Entry) (hx : x ∈ t.allEntries) :
    t.boundary.contains x.position = true := by
  cases t with
  | leaf b es => exact ht x hx
  | node b es nw ne sw se => exact ht.1 x hx

theorem insert_Inv : ∀ (t : Quadtree) (e : Entry), t.WellFormed → t.Inv →
    (t.insert e).2 = .ok → (t.insert e).1.Inv := by
  intro t e
  induction t with
  | leaf b es =>
    intro _ hi _
    by_cases hc : b.contains e.position = true
    · by_cases hlen : es.length < NODE_CAPACITY
      · rw [insert_leaf_push b es e hc hlen]
        intro x hx
        rcases List.mem_append.1 hx with h | h
        · exact hi x h
        · simp at h
          rw [h]
          exact hc
      · rw [insert_leaf_full b es e hc hlen]
        unfold Quadtree.insertLoop
        have hmemchild : ∀ (r : Rectangle) (x : Entry),
            x ∈ (Quadtree.insertNew r e).1.allEntries → b.contains x.position = true := by
          intro r x hx
          rw [insertNew_fst_entries_sub r e x hx]
          exact hc
        have hroot : ∀ (c1 c2 c3 c4 : Quadtree),
            (∀ x, x ∈ c1.allEntries → b.contains x.position = true) →
            (∀ x, x ∈ c2.allEntries → b.contains x.position = true) →
            (∀ x, x ∈ c3.allEntries → b.contains x.position = true) →
            (∀ x, x ∈ c4.allEntries → b.contains x.position = true) →
            ∀ x ∈ (Quadtree.node b es c1 c2 c3 c4).allEntries,
              b.contains x.position = true := by
          intro c1 c2 c3 c4 m1 m2 m3 m4 x hx
          simp only [Quadtree.allEntries, List.mem_append] at hx
          rcases hx with ((((h | h) | h) | h) | h)
          · exact hi x h
          · exact m1 x h
          · exact m2 x h
          · exact m3 x h
          · exact m4 x h
        have hempty : ∀ (r : Rectangle) (x : Entry),
            x ∈ (Quadtree.new r).allEntries → b.contains x.position = true := by
          intro r x hx
          simp [Quadtree.new, Quadtree.allEntries] at hx
        split_ifs <;>
          exact ⟨hroot _ _ _ _
              (by first | exact hmemchild _ | exact hempty _)
              (by first | exact hmemchild _ | exact hempty _)
              (by first | exact hmemchild _ | exact hempty _)
              (by first | exact hmemchild _ | exact hempty _),
            by first | exact insertNew_fst_Inv _ _ | exact new_Inv _,
            by first | exact insertNew_fst_Inv _ _ | exact new_Inv _,
            by first | exact insertNew_fst_Inv _ _ | exact new_Inv _,
            by first | exact insertNew_fst_Inv _ _ | exact new_Inv _⟩
    · have hc2 : b.contains e.position = false := by simpa using hc
      rw [insert_of_not_contains (.leaf b es) e hc2]
      exact hi
  | node b es nw ne sw se ihnw ihne ihsw ihse =>
    intro hw hi hok
    simp only [Quadtree.WellFormed] at hw
    obtain ⟨hbnw, hbne, hbsw, hbse, wnw, wne, wsw, wse⟩ := hw
    obtain ⟨hroot0, inw, ine, isw, ise⟩ := hi
    by_cases hc : b.contains e.position = true
    · have hsub : ∀ (c : Quadtree), c.WellFormed →
          (∀ x, x ∈ c.allEntries → b.contains x.position = true) →
          ∀ x, x ∈ (c.insert e).1.allEntries → b.contains x.position = true := by
        intro c hwc hmem x hx
        rcases insert_allEntries_mem c e x hwc hx with h | h
        · rw [h]; exact hc
        · exact hmem x h
      have mnw : ∀ x, x ∈ nw.allEntries → b.contains x.position = true := by
        intro x h
        exact hroot0 x (by simp only [Quadtree.allEntries, List.mem_append]; tauto)
      have mne : ∀ x, x ∈ ne.allEntries → b.contains x.position = true := by
        intro x h
        exact hroot0 x (by simp only [Quadtree.allEntries, List.mem_append]; tauto)
      have msw : ∀ x, x ∈ sw.allEntries → b.contains x.position = true := by
        intro x h
        exact hroot0 x (by simp only [Quadtree.allEntries, List.mem_append]; tauto)
      have mse : ∀ x, x ∈ se.allEntries → b.contains x.position = true := by
        intro x h
        exact hroot0 x (by simp only [Quadtree.allEntries, List.mem_append]; tauto)
      have mes : ∀ x, x ∈ es → b.contains x.position = true := by
        intro x h
        exact hroot0 x (by simp only [Quadtree.allEntries, List.mem_append]; tauto)
      have hroot : ∀ (c1 c2 c3 c4 : Quadtree),
          (∀ x, x ∈ c1.allEntries → b.contains x.position = true) →
          (∀ x, x ∈ c2.allEntries → b.contains x.position = true) →
          (∀ x, x ∈ c3.allEntries → b.contains x.position = true) →
          (∀ x, x ∈ c4.allEntries → b.contains x.position = true) →
          ∀ x ∈ (Quadtree.node b es c1 c2 c3 c4).allEntries,
            b.contains x.position = true := by
        intro c1 c2 c3 c4 m1 m2 m3 m4 x hx
        simp only [Quadtree.allEntries, List.mem_append] at hx
        rcases hx with ((((h | h) | h) | h) | h)
        · exact mes x h
        · exact m1 x h
        · exact m2 x h
        · exact m3 x h
        · exact m4 x h
      rw [insert_node_contains b es nw ne sw se e hc] at hok ⊢
      unfold Quadtree.insertLoop at hok ⊢
      split_ifs at hok ⊢ with h1 h2 h3 h4
      · exact ⟨hroot _ _ _ _ (hsub nw wnw mnw) mne msw mse,
          ihnw wnw inw h1, ine, isw, ise⟩
      · have hun1 : nw.insert e = (nw, .outOfBounds) := insert_snd_not_ok_eq nw e wnw h1
        rw [hun1]
        exact ⟨hroot _ _ _ _ mnw (hsub ne wne mne) msw mse,
          inw, ihne wne ine h2, isw, ise⟩
      · have hun1 : nw.insert e = (nw, .outOfBounds) := insert_snd_not_ok_eq nw e wnw h1
        have hun2 : ne.insert e = (ne, .outOfBounds) := insert_snd_not_ok_eq ne e wne h2
        rw [hun1, hun2]
        exact ⟨hroot _ _ _ _ mnw mne (hsub sw wsw msw) mse,
          inw, ine, ihsw wsw isw h3, ise⟩
      · have hun1 : nw.insert e = (nw, .outOfBounds) := insert_snd_not_ok_eq nw e wnw h1
        have hun2 : ne.insert e = (ne, .outOfBounds) := insert_snd_not_ok_eq ne e wne h2
        have hun3 : sw.insert e = (sw, .outOfBounds) := insert_snd_not_ok_eq sw e wsw h3
        rw [hun1, hun2, hun3]
        exact ⟨hroot _ _ _ _ mnw mne msw (hsub se wse mse),
          inw, ine, isw, ihse wse ise h4⟩
      all_goals exact absurd hok (by simp)
    · have hc2 : b.contains e.position = false := by simpa using hc
      rw [insert_of_not_contains (.node b es nw ne sw se) e hc2]
      exact ⟨hroot0, inw, ine, isw, ise⟩

theorem new_CapOK (b : Rectangle) : (Quadtree.new b).CapOK := by
  simp [Quadtree.new, Quadtree.CapOK, NODE_CAPACITY]

theorem insertNew_fst_CapOK (b : Rectangle) (e : Entry) :
    (Quadtree.insertNew b e).1.CapOK := by
  by_cases hc : b.contains e.position = true <;>
    simp [Quadtree.insertNew, hc, Quadtree.CapOK, NODE_CAPACITY]

theorem insert_CapOK : ∀ (t : Quadtree) (e : Entry), t.CapOK →
    (t.insert e).1.CapOK := by
  intro t e
  induction t with
  | leaf b es =>
    intro hcap
    by_cases hc : b.contains e.position = true
    · by_cases hlen : es.length < NODE_CAPACITY
      · rw [insert_leaf_push b es e hc hlen]
        simp only [Quadtree.CapOK, List.length_append, List.length_cons, List.length_nil]
        omega
      · rw [insert_leaf_full b es e hc hlen]
        unfold Quadtree.insertLoop
        split_ifs <;>
          exact ⟨hcap,
            by first | exact insertNew_fst_CapOK _ _ | exact new_CapOK _,
            by first | exact insertNew_fst_CapOK _ _ | exact new_CapOK _,
            by first | exact insertNew_fst_CapOK _ _ | exact new_CapOK _,
            by first | exact insertNew_fst_CapOK _ _ | exact new_CapOK _⟩
    · have hc2 : b.contains e.position = false := by simpa using hc
      rw [insert_of_not_contains (.leaf b es) e hc2]
      exact hcap
  | node b es nw ne sw se ihnw ihne ihsw ihse =>
    intro hcap
    obtain ⟨hlen0, cnw, cne, csw, cse⟩ := hcap
    by_cases hc : b.contains e.position = true
    · rw [insert_node_contains b es nw ne sw se e hc]
      unfold Quadtree.insertLoop
      split_ifs <;>
        exact ⟨hlen0,
          by first | exact ihnw cnw | exact cnw,
          by first | exact ihne cne | exact cne,
          by first | exact ihsw csw | exact csw,
          by first | exact ihse cse | exact cse⟩
    · have hc2 : b.contains e.position = false := by simpa using hc
      rw [insert_of_not_contains (.node b es nw ne sw se) e hc2]
      exact ⟨hlen0, cnw, cne, csw, cse⟩

theorem query_count_le : ∀ (t : Quadtree) (r : Rectangle) (x : Entry),
    ((t.query r).count x) ≤ ((t.allEntries).count x) := by
  intro t r x
  induction t with
  | leaf b es =>
    simp only [Quadtree.query, Quadtree.allEntries]
    split_ifs
    · simp
    · exact (es.filter_sublist).count_le x
  | node b es nw ne sw se ihnw ihne ihsw ihse =>
    simp only [Quadtree.query, Quadtree.allEntries]
    split_ifs
    · simp
    · simp only [List.count_append]
      have hf : ((es.filter (fun e => r.contains e.position)).count x) ≤ es.count x :=
        (es.filter_sublist).count_le x
      omega

theorem query_count_eq : ∀ (t : Quadtree) (r : Rectangle) (x : Entry), t.Inv →
    r.contains x.position = true →
    ((t.query r).count x) = ((t.allEntries).count x) := by
  intro t r x
  induction t with
  | leaf b es =>
    intro hi hx
    simp only [Quadtree.query, Quadtree.allEntries]
    split_ifs with h
    · have hni : b.intersects r = false := by simpa using h
      have hz : List.count x es = 0 := by
        rw [List.count_eq_zero]
        intro hmem
        have hint := intersects_of_common_point b r x.position (hi x hmem) hx
        rw [hint] at hni
        simp at hni
      simp [hz]
    · exact List.count_filter (by simpa using hx)
  | node b es nw ne sw se ihnw ihne ihsw ihse =>
    intro hi hx
    obtain ⟨hroot, inw, ine, isw, ise⟩ := hi
    simp only [Quadtree.query, Quadtree.allEntries]
    split_ifs with h
    · have hni : (Quadtree.node b es nw ne sw se).allEntries.count x = 0 := by
        rw [List.count_eq_zero]
        intro hmem
        have hif : b.intersects r = false := by simpa using h
        have hint := intersects_of_common_point b r x.position (hroot x hmem) hx
        rw [hint] at hif
        simp at hif
      simp only [Quadtree.allEntries, List.count_append] at hni
      simp only [List.count_nil, List.count_append]
      omega
    · simp only [List.count_append]
      rw [List.count_filter (by simpa using hx), ihnw inw hx, ihne ine hx,
        ihsw isw hx, ihse ise hx]

theorem insertAll_cons (t : Quadtree) (e : Entry) (es : List Entry) :
    Quadtree.insertAll t (e :: es) = Quadtree.insertAll (t.insert e).1 es := rfl

theorem insertAll_spec : ∀ (es : List Entry) (t : Quadtree), t.WellFormed → t.Inv →
    (Quadtree.insertAll t es).WellFormed ∧ (Quadtree.insertAll t es).Inv ∧
    (Quadtree.insertAll t es).boundary = t.boundary ∧
    ∀ x, ((Quadtree.insertAll t es).allEntries).count x =
      ((t.allEntries).count x) +
        ((es.filter (fun y => t.boundary.contains y.position)).count x) := by
  intro es
  induction es with
  | nil =>
    intro t hw hi
    exact ⟨hw, hi, rfl, by simp [Quadtree.insertAll]⟩
  | cons e es ih =>
    intro t hw hi
    rw [insertAll_cons]
    by_cases hok : (t.insert e).2 = .ok
    · have hw1 := insert_WF t e hw
      have hi1 := insert_Inv t e hw hi hok
      have hb1 := insert_fst_boundary t e
      obtain ⟨w2, i2, b2, c2⟩ := ih (t.insert e).1 hw1 hi1
      refine ⟨w2, i2, by rw [b2, hb1], ?_⟩
      intro x
      rw [c2 x, insert_allEntries_count t e x hw hok, hb1]
      have hc : t.boundary.contains e.position = true := (insert_snd_ok_iff t e hw).1 hok
      simp only [List.filter_cons, hc, if_true, List.count_cons]
      by_cases hxe : x = e <;> simp [hxe] <;> omega
    · have heq := insert_snd_not_ok_eq t e hw hok
      have hc : t.boundary.contains e.position = false := by
        by_contra h
        exact hok ((insert_snd_ok_iff t e hw).2 (by simpa using h))
      rw [heq]
      obtain ⟨w2, i2, b2, c2⟩ := ih t hw hi
      refine ⟨w2, i2, b2, ?_⟩
      intro x
      rw [c2 x]
      simp [List.filter_cons, hc]

theorem grows_refl : ∀ t : Quadtree, t.Grows t := by
  intro t
  induction t with
  | leaf b es => exact ⟨rfl, [], by simp⟩
  | node b es nw ne sw se ihnw ihne ihsw ihse => exact ⟨rfl, rfl, ihnw, ihne, ihsw, ihse⟩

theorem grows_trans : ∀ t u v : Quadtree, t.Grows u → u.Grows v → t.Grows v := by
  intro t
  induction t with
  | leaf b es =>
    intro u v htu huv
    cases u with
    | leaf bu esu =>
      obtain ⟨hb, s, hs⟩ := htu
      cases v with
      | leaf bv esv =>
        obtain ⟨hb2, s2, hs2⟩ := huv
        exact ⟨by rw [hb2, hb], s ++ s2, by rw [hs2, hs, List.append_assoc]⟩
      | node bv esv _ _ _ _ =>
        obtain ⟨hb2, s2, hs2⟩ := huv
        exact ⟨by rw [hb2, hb], s ++ s2, by rw [hs2, hs, List.append_assoc]⟩
    | node bu esu unw une usw use0 =>
      obtain ⟨hb, s, hs⟩ := htu
      cases v with
      | leaf bv esv => exact absurd huv (by simp [Quadtree.Grows])
      | node bv esv _ _ _ _ =>
        obtain ⟨hb2, hes2, _, _, _, _⟩ := huv
        exact ⟨by rw [hb2, hb], s, by rw [hes2, hs]⟩
  | node b es nw ne sw se ihnw ihne ihsw ihse =>
    intro u v htu huv
    cases u with
    | leaf bu esu => exact absurd htu (by simp [Quadtree.Grows])
    | node bu esu unw une usw use0 =>
      obtain ⟨hb, hes, g1, g2, g3, g4⟩ := htu
      cases v with
      | leaf bv esv => exact absurd huv (by simp [Quadtree.Grows])
      | node bv esv vnw vne vsw vse =>
        obtain ⟨hb2, hes2, g1b, g2b, g3b, g4b⟩ := huv
        exact ⟨by rw [hb2, hb], by rw [hes2, hes],
          ihnw _ _ g1 g1b, ihne _ _ g2 g2b, ihsw _ _ g3 g3b, ihse _ _ g4 g4b⟩

theorem insert_grows : ∀ (t : Quadtree) (e : Entry), t.Grows (t.insert e).1 := by
  intro t e
  induction t with
  | leaf b es =>
    by_cases hc : b.contains e.position = true
    · by_cases hlen : es.length < NODE_CAPACITY
      · rw [insert_leaf_push b es e hc hlen]
        exact ⟨rfl, [e], rfl⟩
      · rw [insert_leaf_full b es e hc hlen]
        unfold Quadtree.insertLoop
        split_ifs <;> exact ⟨rfl, [], by simp⟩
    · have hc2 : b.contains e.position = false := by simpa using hc
      rw [insert_of_not_contains (.leaf b es) e hc2]
      exact grows_refl _
  | node b es nw ne sw se ihnw ihne ihsw ihse =>
    by_cases hc : b.contains e.position = true
    · rw [insert_node_contains b es nw ne sw se e hc]
      unfold Quadtree.insertLoop
      split_ifs <;>
        exact ⟨rfl, rfl,
          ihnw,
          by first | exact ihne | exact grows_refl ne,
          by first | exact ihsw | exact grows_refl sw,
          by first | exact ihse | exact grows_refl se⟩
    · have hc2 : b.contains e.position = false := by simpa using hc
      rw [insert_of_not_contains (.node b es nw ne sw se) e hc2]
      exact grows_refl _

theorem insertAll_grows : ∀ (es : List Entry) (t : Quadtree),
    t.Grows (Quadtree.insertAll t es) := by
  intro es
  induction es with
  | nil => intro t; exact grows_refl t
  | cons e es ih =>
    intro t
    rw [insertAll_cons]
    exact grows_trans t (t.insert e).1 _ (insert_grows t e) (ih (t.insert e).1)

theorem grows_node_shape (b : Rectangle) (l : List Entry)
    (nw ne sw se u : Quadtree) (h : (Quadtree.node b l nw ne sw se).Grows u) :
    ∃ nw1 ne1 sw1 se1, u = .node b l nw1 ne1 sw1 se1 ∧
      nw.Grows nw1 ∧ ne.Grows ne1 ∧ sw.Grows sw1 ∧ se.Grows se1 := by
  cases u with
  | leaf bu esu => exact absurd h (by simp [Quadtree.Grows])
  | node bu esu unw une usw use0 =>
    obtain ⟨hb, hes, g1, g2, g3, g4⟩ := h
    exact ⟨unw, une, usw, use0, by rw [hb, hes], g1, g2, g3, g4⟩

theorem new_boundary (b : Rectangle) : (Quadtree.new b).boundary = b := rfl

theorem insertAll_CapOK : ∀ (es : List Entry) (t : Quadtree), t.CapOK →
    (Quadtree.insertAll t es).CapOK := by
  intro es
  induction es with
  | nil => intro t h; exact h
  | cons e es ih =>
    intro t h
    rw [insertAll_cons]
    exact ih (t.insert e).1 (insert_CapOK t e h)

theorem insert_leaf_at_capacity_shape (b : Rectangle) (es : List Entry) (e : Entry)
    (hlen : NODE_CAPACITY ≤ es.length) (hc : b.contains e.position = true) :
    ∃ c1 c2 c3 c4, (Quadtree.insert (.leaf b es) e).1 = .node b es c1 c2 c3 c4 ∧
      ∀ x, (x ∈ c1.allEntries ∨ x ∈ c2.allEntries ∨
            x ∈ c3.allEntries ∨ x ∈ c4.allEntries) → x = e := by
  rw [insert_leaf_full b es e hc (by omega)]
  unfold Quadtree.insertLoop
  split_ifs <;>
    refine ⟨_, _, _, _, rfl, ?_⟩ <;>
      rintro x (hx | hx | hx | hx) <;>
        first
          | exact insertNew_fst_entries_sub _ e x hx
          | simp [Quadtree.new, Quadtree.allEntries] at hx

/-- C1: on any tree built through new and insert with root boundary R,
insert(e) returns Ok exactly when R contains e's position; concretely, with
R centered at (0,0) with half-extent (100,100), inserting an entry at
(50,50) succeeds and inserting one at (150,150) fails with OutOfBounds. -/
theorem C1_insert_ok_iff_contains :
    (∀ (b : Rectangle) (es : List Entry) (e : Entry),
      ((Quadtree.insertAll (Quadtree.new b) es).insert e).2 = .ok ↔
        b.contains e.position = true) ∧
    ((Quadtree.new R100).insert ent50).2 = .ok ∧
    ((Quadtree.new R100).insert ent150).2 = .outOfBounds := by
  refine ⟨?_, ?_, ?_⟩
  · intro b es e
    obtain ⟨hw, _, hb, _⟩ := insertAll_spec es (Quadtree.new b) (new_WF b) (new_Inv b)
    rw [insert_snd_ok_iff _ e hw, hb, new_boundary]
  · norm_num [Quadtree.new, Quadtree.insert, NODE_CAPACITY, Rectangle.contains, R100, ent50]
  · norm_num [Quadtree.new, Quadtree.insert, NODE_CAPACITY, Rectangle.contains, R100, ent150]

/-- C5: when a node's boundary does not intersect the range, query returns
the empty sequence (the whole subtree is pruned). -/
theorem C5_query_prune (t : Quadtree) (range : Rectangle)
    (h : t.boundary.intersects range = false) : t.query range = [] := by
  cases t <;> simp_all [Quadtree.query, Quadtree.boundary]

/-- C5 witness: a concrete pruned query. -/
theorem C5_witness : Quadtree.query (.leaf R100 [ent50]) Rfar = [] :=
  C5_query_prune (.leaf R100 [ent50]) Rfar
    (by norm_num [Quadtree.boundary, Rectangle.intersects, R100, Rfar])

/-- C6: inserting an entry whose position fails the containment check of
the node inserted into (this theorem quantifies over every node, so the
check applies at every level of the recursion, not only the root) fails
with OutOfBounds and leaves the node, entries and children included,
completely unchanged. -/
theorem C6_oob_leaves_tree_unchanged (t : Quadtree) (e : Entry)
    (h : t.boundary.contains e.position = false) :
    t.insert e = (t, .outOfBounds) :=
  insert_of_not_contains t e h

/-- C6 witness: a concrete out-of-bounds insert returning the unchanged
tree. -/
theorem C6_witness :
    (Quadtree.new R100).insert ent150 = (Quadtree.new R100, .outOfBounds) :=
  C6_oob_leaves_tree_unchanged (Quadtree.new R100) ent150
    (by norm_num [Quadtree.new, Quadtree.boundary, Rectangle.contains, R100, ent150])

/-- C7: on an internal node whose boundary intersects the range, query
returns the node's own matching entries in stored order, followed by the
four quadrants' results in the fixed NW, NE, SW, SE order (each quadrant's
own result is computed by the same function, hence recursively ordered the
same way). -/
theorem C7_query_order (b : Rectangle) (es : List Entry) (nw ne sw se : Quadtree)
    (range : Rectangle) (h : b.intersects range = true) :
    Quadtree.query (.node b es nw ne sw se) range =
      es.filter (fun e => range.contains e.position) ++
        nw.query range ++ ne.query range ++ sw.query range ++ se.query range := by
  simp [Quadtree.query, h]

/-- C7 witness: concrete instance on a small internal node. -/
theorem C7_witness :
    Quadtree.query (.node R100 [ent50] (Quadtree.new (nwRect R100))
        (Quadtree.new (neRect R100)) (Quadtree.new (swRect R100))
        (Quadtree.new (seRect R100))) R100 =
      [ent50].filter (fun e => R100.contains e.position) ++
        (Quadtree.new (nwRect R100)).query R100 ++
        (Quadtree.new (neRect R100)).query R100 ++
        (Quadtree.new (swRect R100)).query R100 ++
        (Quadtree.new (seRect R100)).query R100 :=
  C7_query_order R100 [ent50] (Quadtree.new (nwRect R100)) (Quadtree.new (neRect R100))
    (Quadtree.new (swRect R100)) (Quadtree.new (seRect R100)) R100
    (by norm_num [Rectangle.intersects, R100])

/-- C2 counterexample: the same entry (the same reference) can be inserted
twice successfully; a query whose range contains its position then returns
it twice, so it is not returned exactly once and not at most once. -/
theorem C2_counterexample :
    R100.contains ent50.position = true ∧
    ((Quadtree.insertAll (Quadtree.new R100) [ent50, ent50]).query R100).count ent50 ≠ 1 := by
  constructor
  · norm_num [Rectangle.contains, R100, ent50]
  · have h : ((Quadtree.insertAll (Quadtree.new R100) [ent50, ent50]).query R100).count ent50 = 2 := by
      norm_num [Quadtree.insertAll, Quadtree.new, Quadtree.insert, NODE_CAPACITY,
        Rectangle.contains, Rectangle.intersects, Quadtree.query, R100, ent50, List.count_cons]
    omega

/-- C2 amended: provided each entry is inserted at most once (the insertion
sequence holds pairwise-distinct entries), a query whose range contains a
successfully inserted entry's position returns that entry exactly once, and
every entry appears in the result at most once. -/
theorem C2_query_exactly_once (b : Rectangle) (es : List Entry) (e : Entry)
    (range : Rectangle) (hnd : es.Nodup) (hmem : e ∈ es)
    (hce : b.contains e.position = true) (hre : range.contains e.position = true) :
    ((Quadtree.insertAll (Quadtree.new b) es).query range).count e = 1 ∧
    ∀ x, ((Quadtree.insertAll (Quadtree.new b) es).query range).count x ≤ 1 := by
  obtain ⟨hw, hi, hb, hcnt⟩ := insertAll_spec es (Quadtree.new b) (new_WF b) (new_Inv b)
  have hall : ∀ x, ((Quadtree.insertAll (Quadtree.new b) es).allEntries).count x =
      ((es.filter (fun y => b.contains y.position)).count x) := by
    intro x
    have h := hcnt x
    simp only [new_boundary] at h
    simpa [Quadtree.new, Quadtree.allEntries] using h
  constructor
  · rw [query_count_eq _ range e hi hre, hall e,
      List.count_filter (by simpa using hce)]
    have h1 := List.nodup_iff_count_le_one.1 hnd e
    have h2 := List.count_pos_iff.2 hmem
    omega
  · intro x
    have hq := query_count_le (Quadtree.insertAll (Quadtree.new b) es) range x
    rw [hall x] at hq
    have hf : ((es.filter (fun y => b.contains y.position)).count x) ≤ es.count x :=
      (es.filter_sublist).count_le x
    have h1 := List.nodup_iff_count_le_one.1 hnd x
    omega

/-- C2 witness: with two distinct entries inserted once each, a covering
query returns the first exactly once. -/
theorem C2_witness :
    ((Quadtree.insertAll (Quadtree.new R100) [ent50, entB]).query R100).count ent50 = 1 :=
  (C2_query_exactly_once R100 [ent50, entB] ent50 R100
    (by simp [ent50, entB])
    (by simp)
    (by norm_num [Rectangle.contains, R100, ent50])
    (by norm_num [Rectangle.contains, R100, ent50])).1

/-- C3: insert returns the internal-consistency error exactly when the
entry passes the node's containment check, the node is internal, and none
of the four quadrants' inserts returns Ok (a full leaf that subdivides
never produces it, since one fresh child always accepts); the error is
distinct from OutOfBounds and is the call's returned result, not
swallowed. -/
theorem C3_internal_error_iff :
    (InsertResult.internalError ≠ InsertResult.outOfBounds) ∧
    ∀ (t : Quadtree) (e : Entry),
      ((t.insert e).2 = .internalError ↔
        (t.boundary.contains e.position = true ∧
          ∃ b l nw ne sw se, t = .node b l nw ne sw se ∧
            (nw.insert e).2 ≠ .ok ∧ (ne.insert e).2 ≠ .ok ∧
            (sw.insert e).2 ≠ .ok ∧ (se.insert e).2 ≠ .ok)) := by
  refine ⟨by simp, ?_⟩
  intro t e
  cases t with
  | leaf b es =>
    refine iff_of_false ?_ ?_
    · by_cases hc : b.contains e.position = true
      · by_cases hlen : es.length < NODE_CAPACITY
        · rw [insert_leaf_push b es e hc hlen]
          simp
        · rw [insert_leaf_full b es e hc hlen, insertLoop_snd_internal_iff]
          rintro ⟨h1, h2, h3, h4⟩
          rcases contains_some_child b e.position hc with h | h | h | h
          · exact h1 ((insertNew_snd_ok_iff _ e).2 h)
          · exact h2 ((insertNew_snd_ok_iff _ e).2 h)
          · exact h3 ((insertNew_snd_ok_iff _ e).2 h)
          · exact h4 ((insertNew_snd_ok_iff _ e).2 h)
      · rw [insert_of_not_contains (.leaf b es) e (by simpa using hc)]
        simp
    · rintro ⟨-, b2, l2, nw2, ne2, sw2, se2, heq, -⟩
      exact Quadtree.noConfusion heq
  | node b es nw ne sw se =>
    by_cases hc : b.contains e.position = true
    · rw [insert_node_contains b es nw ne sw se e hc, insertLoop_snd_internal_iff]
      constructor
      · rintro ⟨h1, h2, h3, h4⟩
        exact ⟨hc, b, es, nw, ne, sw, se, rfl, h1, h2, h3, h4⟩
      · rintro ⟨-, b2, l2, nw2, ne2, sw2, se2, heq, h1, h2, h3, h4⟩
        cases heq
        exact ⟨h1, h2, h3, h4⟩
    · rw [insert_of_not_contains (.node b es nw ne sw se) e (by simpa using hc)]
      refine iff_of_false (by simp) ?_
      rintro ⟨hcc, -⟩
      exact absurd hcc (by simpa using hc)

/-- C4: no insert ever relocates an entry between nodes (every node's own
entries list is only appended to at a leaf and otherwise preserved,
boundaries included), and when a leaf at capacity subdivides, its entries
list stays attached to it verbatim while the four new children receive at
most the newly inserted entry. -/
theorem C4_no_redistribution :
    (∀ (t : Quadtree) (e : Entry), t.Grows (t.insert e).1) ∧
    ∀ (b : Rectangle) (es : List Entry) (e : Entry),
      NODE_CAPACITY ≤ es.length → b.contains e.position = true →
      ∃ c1 c2 c3 c4, (Quadtree.insert (.leaf b es) e).1 = .node b es c1 c2 c3 c4 ∧
        ∀ x, (x ∈ c1.allEntries ∨ x ∈ c2.allEntries ∨
              x ∈ c3.allEntries ∨ x ∈ c4.allEntries) → x = e := by
  exact ⟨insert_grows, insert_leaf_at_capacity_shape⟩

/-- C8: when a leaf at capacity subdivides during insert, the four
installed children carry the boundaries computed from the parent's center
(px,py) and half-extent (hx,hy): centers at all four sign combinations
(px-hx/2, py-hy/2), (px+hx/2, py-hy/2), (px-hx/2, py+hy/2),
(px+hx/2, py+hy/2), each with half-extent (hx/2, hy/2). -/
theorem C8_subdivide_geometry (b : Rectangle) (es : List Entry) (e : Entry)
    (hlen : NODE_CAPACITY ≤ es.length) (hc : b.contains e.position = true) :
    ∃ c1 c2 c3 c4,
      (Quadtree.insert (.leaf b es) e).1 = .node b es c1 c2 c3 c4 ∧
      c1.boundary = ⟨⟨b.center.x - b.half_dim.x / 2, b.center.y - b.half_dim.y / 2⟩,
        ⟨b.half_dim.x / 2, b.half_dim.y / 2⟩⟩ ∧
      c2.boundary = ⟨⟨b.center.x + b.half_dim.x / 2, b.center.y - b.half_dim.y / 2⟩,
        ⟨b.half_dim.x / 2, b.half_dim.y / 2⟩⟩ ∧
      c3.boundary = ⟨⟨b.center.x - b.half_dim.x / 2, b.center.y + b.half_dim.y / 2⟩,
        ⟨b.half_dim.x / 2, b.half_dim.y / 2⟩⟩ ∧
      c4.boundary = ⟨⟨b.center.x + b.half_dim.x / 2, b.center.y + b.half_dim.y / 2⟩,
        ⟨b.half_dim.x / 2, b.half_dim.y / 2⟩⟩ := by
  rw [insert_leaf_full b es e hc (by omega)]
  unfold Quadtree.insertLoop
  split_ifs <;>
    exact ⟨_, _, _, _, rfl,
      by first | exact insertNew_fst_boundary .. | rfl,
      by first | exact insertNew_fst_boundary .. | rfl,
      by first | exact insertNew_fst_boundary .. | rfl,
      by first | exact insertNew_fst_boundary .. | rfl⟩

/-- C8 witness: subdividing the test rectangle R100 at capacity. -/
theorem C8_witness :
    ∃ c1 c2 c3 c4,
      (Quadtree.insert (.leaf R100 [ent50, entB, entC, entD]) entE).1 =
        .node R100 [ent50, entB, entC, entD] c1 c2 c3 c4 ∧
      c1.boundary = ⟨⟨R100.center.x - R100.half_dim.x / 2, R100.center.y - R100.half_dim.y / 2⟩,
        ⟨R100.half_dim.x / 2, R100.half_dim.y / 2⟩⟩ ∧
      c2.boundary = ⟨⟨R100.center.x + R100.half_dim.x / 2, R100.center.y - R100.half_dim.y / 2⟩,
        ⟨R100.half_dim.x / 2, R100.half_dim.y / 2⟩⟩ ∧
      c3.boundary = ⟨⟨R100.center.x - R100.half_dim.x / 2, R100.center.y + R100.half_dim.y / 2⟩,
        ⟨R100.half_dim.x / 2, R100.half_dim.y / 2⟩⟩ ∧
      c4.boundary = ⟨⟨R100.center.x + R100.half_dim.x / 2, R100.center.y + R100.half_dim.y / 2⟩,
        ⟨R100.half_dim.x / 2, R100.half_dim.y / 2⟩⟩ :=
  C8_subdivide_geometry R100 [ent50, entB, entC, entD] entE
    (by simp [NODE_CAPACITY])
    (by norm_num [Rectangle.contains, R100, entE])

/-- C9: an internal node stays internal under any further sequence of
inserts (queries do not mutate): its boundary and own entries are
unchanged and each of its four children only grows in place, never being
replaced by an unrelated subtree or removed. -/
theorem C9_internal_stays_internal (b : Rectangle) (l : List Entry)
    (nw ne sw se : Quadtree) (es : List Entry) :
    ∃ nw1 ne1 sw1 se1,
      Quadtree.insertAll (.node b l nw ne sw se) es = .node b l nw1 ne1 sw1 se1 ∧
      nw.Grows nw1 ∧ ne.Grows ne1 ∧ sw.Grows sw1 ∧ se.Grows se1 :=
  grows_node_shape b l nw ne sw se _ (insertAll_grows es _)

/-- C10: NODE_CAPACITY is 4 and on every tree built from new by any
sequence of inserts, every node's own entries list holds at most
NODE_CAPACITY entries, internal nodes included. -/
theorem C10_capacity_bound :
    NODE_CAPACITY = 4 ∧
    ∀ (b : Rectangle) (es : List Entry),
      (Quadtree.insertAll (Quadtree.new b) es).CapOK :=
  ⟨rfl, fun b es => insertAll_CapOK es (Quadtree.new b) (new_CapOK b)⟩
